import Mathlib

/-!
Verification of the keyword-scanning core of `planning_keyword_extractor_app.py`.

Text is modelled as `List Char`, byte payloads as `List Nat`.  Python's
case-insensitive literal regex matching (`re.compile(re.escape(kw), re.IGNORECASE)`)
is modelled by comparing characters after `Char.toLower`; `re.escape` makes the
pattern a literal string, so a match at position `i` is exactly "the next
`kw.length` characters of the text lower-equal the keyword".
-/

namespace PdfScraper

/-- Convert a string literal to the `List Char` text representation. -/
def str (s : String) : List Char := s.data

/-- Lower-case a character list, modelling case-insensitive comparison. -/
def lowerL (l : List Char) : List Char := l.map Char.toLower

/-- Case-insensitive equality of two character lists. -/
def lowerEq (a b : List Char) : Bool := lowerL a = lowerL b

/-- Python slice `text[a:b]` for `0 ≤ a ≤ b` (clamped at the ends). -/
def slice (a b : Nat) (l : List Char) : List Char := (l.take b).drop a

/-- A case-insensitive occurrence of `kw` starts at position `i` of `text`:
the match of `re.escape(kw)` with `re.IGNORECASE` at `i`. -/
def matchAt (text kw : List Char) (i : Nat) : Bool :=
  decide (i + kw.length ≤ text.length) && lowerEq ((text.drop i).take kw.length) kw

/-- `text` contains a case-insensitive occurrence of `kw` somewhere. -/
def containsCI (text kw : List Char) : Bool :=
  (List.range (text.length + 1)).any (fun i => matchAt text kw i)

/-- One step of `re.finditer`'s left-to-right non-overlapping scan, with
explicit fuel (the scan advances by at least one position per step, and
an empty pattern match advances by one as in Python 3.7+). -/
def scanAux (text kw : List Char) : Nat → Nat → List (Nat × Nat)
  | 0, _ => []
  | fuel + 1, i =>
    if i ≤ text.length then
      if matchAt text kw i then
        (i, i + kw.length) :: scanAux text kw fuel (i + max 1 kw.length)
      else
        scanAux text kw fuel (i + 1)
    else []

/-- All match spans `[s, e)` produced by `pattern.finditer(text)` in order. -/
def findSpans (text kw : List Char) : List (Nat × Nat) :=
  scanAux text kw (text.length + 1) 0

/-- `snippet.replace("\n", " ")`: each literal newline becomes one space. -/
def nlToSpace (c : Char) : Char := if c = '\n' then ' ' else c

/-- `find_snippets(text, keyword, window)` from the source: for each match
span `[s, e)` return `text[max(0, s-window) : min(len(text), e+window)]`
with newlines replaced by spaces. -/
def find_snippets (text kw : List Char) (window : Nat) : List (List Char) :=
  (findSpans text kw).map (fun p =>
    (slice (p.1 - window) (min text.length (p.2 + window)) text).map nlToSpace)

example : find_snippets (str "Height restrictions HEIGHT") (str "height") 3 =
    [str "Height re", str "ns HEIGHT"] := by decide

example : find_snippets (str "") (str "") 5 = [str ""] := by decide

example : findSpans (str "aaa") (str "aa") = [(0, 2)] := by decide

/-- The `"**"` emphasis marker used by `highlight`. -/
def star2 : List Char := ['*', '*']

/-- Render the text with each match span wrapped in `**` markers; the
unmatched stretches are copied verbatim, exactly as `pattern.sub` does. -/
def hlAux (s : List Char) : Nat → List (Nat × Nat) → List Char
  | pos, [] => slice pos s.length s
  | pos, (a, b) :: rest => slice pos a s ++ star2 ++ slice a b s ++ star2 ++ hlAux s b rest

/-- `highlight(snippet, keyword)` from the source:
`pattern.sub(lambda m: f"**{m.group(0)}**", snippet)` — every non-overlapping
case-insensitive occurrence is wrapped in `**`, keeping its original casing. -/
def highlight (snippet kw : List Char) : List Char :=
  hlAux snippet 0 (findSpans snippet kw)

example : highlight (str "ab") (str "") = str "****a****b****" := by decide

example : highlight (str "Construction x") (str "construction") =
    str "**Construction** x" := by decide

/-- `str.strip()` on the part between commas (ASCII whitespace model). -/
def trim (l : List Char) : List Char :=
  ((l.dropWhile Char.isWhitespace).reverse.dropWhile Char.isWhitespace).reverse

/-- `_parse_keywords(s)` from the source:
`[k.strip() for k in s.split(",") if k.strip()]`. -/
def parseKeywords (s : List Char) : List (List Char) :=
  ((s.splitOn ',').map trim).filter (fun k => !k.isEmpty)

example : parseKeywords (str " a , ,b") = [str "a", str "b"] := by decide

/-! ### Batch ingestion (`gather_pdf_paths`)

Uploads are `(name, bytes)` pairs.  The `zipfile` library is an external
collaborator: it is modelled by a parameter `zipParse` which, given an
archive's bytes, returns its member list `(member name, member bytes)` in
listing order, or `none` when the archive is malformed (`BadZipFile`).
The temporary directory is an association list from destination path to
bytes; `Path.write_bytes` overwrites an existing file at the same path. -/

/-- The temp-dir file system: destination path to written bytes. -/
abbrev FS := List (List Char × List Nat)

/-- `dest.write_bytes(data)`: overwrite the entry at `path` or append it. -/
def fsWrite (fs : FS) (path : List Char) (data : List Nat) : FS :=
  if fs.any (fun e => decide (e.1 = path)) then
    fs.map (fun e => if e.1 = path then (path, data) else e)
  else fs ++ [(path, data)]

/-- Read the bytes currently stored at `path` in the temp dir. -/
def fsRead (fs : FS) (path : List Char) : Option (List Nat) :=
  (fs.find? (fun e => decide (e.1 = path))).map (fun e => e.2)

/-- `filename.lower().endswith(".zip")`. -/
def isZipName (name : List Char) : Bool := (str ".zip").isSuffixOf (lowerL name)

/-- `member.lower().endswith(".pdf")`. -/
def isPdfName (name : List Char) : Bool := (str ".pdf").isSuffixOf (lowerL name)

/-- `Path(member).name`: the last `/`-separated component. -/
def baseName (l : List Char) : List Char := (l.splitOn '/').getLastD []

/-- The inner loop over an archive's members: write each `.pdf` member to
the temp dir under its base filename and append that path to the output. -/
def writeMembers (acc : FS × List (List Char))
    (members : List (List Char × List Nat)) : FS × List (List Char) :=
  members.foldl (fun a m =>
    if isPdfName m.1 then (fsWrite a.1 (baseName m.1) m.2, a.2 ++ [baseName m.1])
    else a) acc

/-- The upload loop of `gather_pdf_paths`; a `BadZipFile` from `zipfile`
propagates (there is no handler), modelled by `Except.error` naming the
offending upload. -/
def gatherAux (zipParse : List Nat → Option (List (List Char × List Nat))) :
    List (List Char × List Nat) → FS × List (List Char) →
    Except (List Char) (FS × List (List Char))
  | [], acc => .ok acc
  | u :: rest, acc =>
    if isZipName u.1 then
      match zipParse u.2 with
      | none => .error u.1
      | some members => gatherAux zipParse rest (writeMembers acc members)
    else gatherAux zipParse rest (fsWrite acc.1 u.1 u.2, acc.2 ++ [u.1])

/-- `gather_pdf_paths(temp_dir)` from the source: write uploads (expanding
`.zip` archives) into the temp dir and return it plus the path list. -/
def gather_pdf_paths (zipParse : List Nat → Option (List (List Char × List Nat)))
    (uploads : List (List Char × List Nat)) :
    Except (List Char) (FS × List (List Char)) :=
  gatherAux zipParse uploads ([], [])

/-! ### The scan loop (`run_btn` block, lines 161–181)

A document is its filename plus the outcome of `extract_text_from_pdf`
(`Except.error` models the raised exception caught at line 164). -/

/-- One row appended to `results` at lines 171–177. -/
structure MatchRecord where
  file : List Char
  keyword : List Char
  snippet : List Char
deriving DecidableEq, Repr

/-- Observable state of the scan loop: the `results` list, the
`progress.progress(idx / len, ...)` calls issued, and the `st.error`
diagnostics issued for failed documents. -/
structure ScanState where
  results : List MatchRecord
  progressReports : List (Nat × Nat)
  failures : List (List Char)
deriving DecidableEq, Repr

/-- The records appended for one successfully extracted document:
keywords in configuration order, snippets in match order. -/
def docRecords (name text : List Char) (keywords : List (List Char))
    (window : Nat) : List MatchRecord :=
  (keywords.map (fun kw =>
    (find_snippets text kw window).map (fun sn => MatchRecord.mk name kw sn))).flatten

/-- One iteration of `for idx, pdf_path in enumerate(pdf_paths, 1)`:
on extraction failure the `except` branch logs an error and `continue`s
(skipping the progress call); on success it appends records and then
reports progress `(idx, total)`. -/
def scanStep (total : Nat) (keywords : List (List Char)) (window : Nat)
    (acc : ScanState) (d : Nat × (List Char × Except Unit (List Char))) : ScanState :=
  match d.2.2 with
  | .error _ => { acc with failures := acc.failures ++ [d.2.1] }
  | .ok text =>
    { results := acc.results ++ docRecords d.2.1 text keywords window,
      progressReports := acc.progressReports ++ [(d.1, total)],
      failures := acc.failures }

/-- The whole scan loop over the ingested documents. -/
def runScan (docs : List (List Char × Except Unit (List Char)))
    (keywords : List (List Char)) (window : Nat) : ScanState :=
  (docs.enumFrom 1).foldl (scanStep docs.length keywords window) ⟨[], [], []⟩

example :
    (runScan [(str "a.pdf", .ok (str "xx")), (str "b.pdf", .error ())]
      [str "x"] 0).progressReports = [(1, 2)] := by decide

/-! ### Lemmas about characters and case folding -/

lemma charToNat_ofNatAux (n : Nat) (h : n.isValidChar) :
    (Char.ofNatAux n h).toNat = n := by
  simp [Char.ofNatAux, Char.toNat, UInt32.toNat, BitVec.ofNatLt]

/-- Lower-casing never produces a newline from a non-newline character. -/
lemma toLower_eq_newline {k : Char} (h : k.toLower = '\n') : k = '\n' := by
  unfold Char.toLower at h
  simp only [] at h
  by_cases hb : k.toNat >= 65 ∧ k.toNat <= 90
  · rw [if_pos hb] at h
    exfalso
    have hv : (k.toNat + 32).isValidChar := by
      left
      omega
    rw [Char.ofNat, dif_pos hv] at h
    have h2 := congrArg Char.toNat h
    rw [charToNat_ofNatAux] at h2
    have h10 : Char.toNat '\n' = 10 := by decide
    rw [h10] at h2
    omega
  · rw [if_neg hb] at h
    exact h

/-- Replacing newlines by spaces preserves case-insensitive equality with a
keyword that contains no newline. -/
lemma lowerL_map_nlToSpace : ∀ (kw chunk : List Char), '\n' ∉ kw →
    lowerL chunk = lowerL kw → lowerL (chunk.map nlToSpace) = lowerL kw
  | [], chunk, _, h => by
    cases chunk with
    | nil => simp [lowerL]
    | cons c cs => simp [lowerL] at h
  | k :: ks, chunk, hnl, h => by
    cases chunk with
    | nil => simp [lowerL] at h
    | cons c cs =>
      simp only [lowerL, List.map_cons, List.cons.injEq] at h
      have hknl : k ≠ '\n' := fun hk => hnl (hk ▸ List.mem_cons_self k ks)
      have hcs := lowerL_map_nlToSpace ks cs (fun hm => hnl (List.mem_cons_of_mem k hm)) h.2
      simp only [lowerL, List.map_cons, List.cons.injEq] at hcs ⊢
      refine ⟨?_, hcs⟩
      by_cases hc : c = '\n'
      · exfalso
        rw [hc] at h
        have : k.toLower = '\n' := by
          have h1 := h.1
          simp at h1
          exact h1.symm
        exact hknl (toLower_eq_newline this)
      · simpa [nlToSpace, hc] using h.1

/-! ### Lemmas about the match scan -/

/-- Every span the scan emits is a genuine case-insensitive occurrence whose
width is the keyword length. -/
lemma scanAux_sound (text kw : List Char) :
    ∀ fuel i p, p ∈ scanAux text kw fuel i →
      matchAt text kw p.1 = true ∧ p.2 = p.1 + kw.length
  | 0, i, p, hp => by simp [scanAux] at hp
  | fuel + 1, i, p, hp => by
    rw [scanAux] at hp
    split at hp
    · split at hp
      · rcases List.mem_cons.mp hp with h | h
        · subst h
          constructor
          · assumption
          · rfl
        · exact scanAux_sound text kw fuel _ p h
      · exact scanAux_sound text kw fuel _ p hp
    · simp at hp

/-- Every span the scan emits starts at or after the scan position. -/
lemma scanAux_start_le (text kw : List Char) :
    ∀ fuel i p, p ∈ scanAux text kw fuel i → i ≤ p.1
  | 0, i, p, hp => by simp [scanAux] at hp
  | fuel + 1, i, p, hp => by
    rw [scanAux] at hp
    split at hp
    · split at hp
      · rcases List.mem_cons.mp hp with h | h
        · subst h
          exact Nat.le_refl i
        · have := scanAux_start_le text kw fuel _ p h
          omega
      · have := scanAux_start_le text kw fuel _ p hp
        omega
    · simp at hp

/-- The emitted spans are non-overlapping in output order. -/
lemma scanAux_chain (text kw : List Char) :
    ∀ fuel i, List.Chain' (fun p q => p.2 ≤ q.1) (scanAux text kw fuel i)
  | 0, i => by simp [scanAux]
  | fuel + 1, i => by
    rw [scanAux]
    split
    · split
      · refine List.chain'_cons'.mpr ⟨?_, scanAux_chain text kw fuel _⟩
        intro q hq
        have hmem : q ∈ scanAux text kw fuel (i + max 1 kw.length) :=
          List.mem_of_mem_head? hq
        have := scanAux_start_le text kw fuel _ q hmem
        simp only
        omega
      · exact scanAux_chain text kw fuel _
    · simp

/-- Completeness of the scan for non-empty keywords: every occurrence
overlaps one of the emitted spans. -/
lemma scanAux_covers (text kw : List Char) (hk : kw ≠ []) :
    ∀ fuel i j, text.length + 1 - i ≤ fuel → i ≤ j → matchAt text kw j = true →
      ∃ p ∈ scanAux text kw fuel i, p.1 ≤ j ∧ j < p.2
  | 0, i, j, hfuel, hij, hj => by
    exfalso
    have hb : j + kw.length ≤ text.length := by
      have := (Bool.and_eq_true _ _).mp hj
      exact of_decide_eq_true this.1
    have hkpos : 0 < kw.length := List.length_pos.mpr hk
    omega
  | fuel + 1, i, j, hfuel, hij, hj => by
    have hb : j + kw.length ≤ text.length := by
      have := (Bool.and_eq_true _ _).mp hj
      exact of_decide_eq_true this.1
    have hkpos : 0 < kw.length := List.length_pos.mpr hk
    rw [scanAux]
    rw [if_pos (by omega : i ≤ text.length)]
    by_cases hm : matchAt text kw i = true
    · rw [if_pos hm]
      by_cases hcase : j < i + kw.length
      · exact ⟨(i, i + kw.length), List.mem_cons_self _ _, hij, hcase⟩
      · have hrec := scanAux_covers text kw hk fuel (i + max 1 kw.length) j
          (by omega) (by omega) hj
        obtain ⟨p, hp, h1, h2⟩ := hrec
        exact ⟨p, List.mem_cons_of_mem _ hp, h1, h2⟩
    · rw [if_neg hm]
      have hne : i ≠ j := fun he => hm (he ▸ hj)
      exact scanAux_covers text kw hk fuel (i + 1) j (by omega) (by omega) hj

/-- `findSpans` versions of the scan lemmas. -/
lemma findSpans_sound (text kw : List Char) {p : Nat × Nat}
    (hp : p ∈ findSpans text kw) :
    matchAt text kw p.1 = true ∧ p.2 = p.1 + kw.length :=
  scanAux_sound text kw _ 0 p hp

lemma findSpans_chain (text kw : List Char) :
    List.Chain' (fun p q => p.2 ≤ q.1) (findSpans text kw) :=
  scanAux_chain text kw _ 0

lemma findSpans_covers (text kw : List Char) (hk : kw ≠ []) {j : Nat}
    (hj : matchAt text kw j = true) :
    ∃ p ∈ findSpans text kw, p.1 ≤ j ∧ j < p.2 :=
  scanAux_covers text kw hk _ 0 j (by omega) (Nat.zero_le j) hj

/-- Unpack a successful `matchAt`. -/
lemma matchAt_elim {text kw : List Char} {i : Nat} (h : matchAt text kw i = true) :
    i + kw.length ≤ text.length ∧
      lowerL ((text.drop i).take kw.length) = lowerL kw := by
  have h2 := (Bool.and_eq_true _ _).mp h
  refine ⟨of_decide_eq_true h2.1, ?_⟩
  have := h2.2
  simpa [lowerEq] using this

/-! ### Lemmas about snippets -/

lemma slice_length (a b : Nat) (l : List Char) :
    (slice a b l).length = min b l.length - a := by
  simp [slice]

/-- The snippet carved around a match still contains a case-insensitive
occurrence of the keyword, provided the keyword has no newline (the scan's
occurrence survives the newline-to-space replacement). -/
lemma snippet_contains (text kw : List Char) (w : Nat) (hnl : '\n' ∉ kw)
    {s e : Nat} (hm : matchAt text kw s = true) (he : e = s + kw.length) :
    containsCI ((slice (s - w) (min text.length (e + w)) text).map nlToSpace) kw
      = true := by
  obtain ⟨hbound, hlow⟩ := matchAt_elim hm
  have ha : s - w ≤ s := Nat.sub_le s w
  have hsb : s + kw.length ≤ min text.length (e + w) := by omega
  have hblen : min text.length (e + w) ≤ text.length := Nat.min_le_left _ _
  have hlen : ((slice (s - w) (min text.length (e + w)) text).map nlToSpace).length
      = min text.length (e + w) - (s - w) := by
    rw [List.length_map, slice_length]
    omega
  have hchunk :
      ((((slice (s - w) (min text.length (e + w)) text).map nlToSpace).drop
          (s - (s - w))).take kw.length)
        = ((text.drop s).take kw.length).map nlToSpace := by
    rw [← List.map_drop, ← List.map_take]
    congr 1
    show ((((text.take (min text.length (e + w))).drop (s - w)).drop
        (s - (s - w))).take kw.length) = (text.drop s).take kw.length
    rw [List.drop_drop]
    have hs : (s - w) + (s - (s - w)) = s := by omega
    rw [hs, List.take_drop, List.take_take,
      Nat.min_eq_left (by omega : s + kw.length ≤ min text.length (e + w)),
      ← List.take_drop]
  have hmatch : matchAt
      ((slice (s - w) (min text.length (e + w)) text).map nlToSpace) kw
      (s - (s - w)) = true := by
    rw [matchAt, Bool.and_eq_true]
    constructor
    · rw [decide_eq_true_iff, hlen]
      omega
    · rw [hchunk]
      show lowerEq (((text.drop s).take kw.length).map nlToSpace) kw = true
      rw [lowerEq, decide_eq_true_iff]
      exact lowerL_map_nlToSpace kw _ hnl hlow
  rw [containsCI, List.any_eq_true]
  refine ⟨s - (s - w), List.mem_range.mpr ?_, hmatch⟩
  rw [hlen]
  omega

/-- The clamped snippet never exceeds `2*window + keyword length`. -/
lemma snippet_length_le (text kw : List Char) (w : Nat) {s e : Nat}
    (hm : matchAt text kw s = true) (he : e = s + kw.length) :
    ((slice (s - w) (min text.length (e + w)) text).map nlToSpace).length
      ≤ 2 * w + kw.length := by
  obtain ⟨hbound, _⟩ := matchAt_elim hm
  rw [List.length_map, slice_length]
  omega

/-! ### The claims -/

/-- C1: each match span `[s, e)` of `find_snippets(T, K, W)` yields the
snippet `T[max(0, s-W) : min(len T, e+W)]` with newlines replaced by single
spaces; the span has width `len K`, ends inside the text, and the snippet's
length is at most `2*W + len K`. -/
theorem C1_snippet_window (text kw : List Char) (w i s e : Nat)
    (hsp : (findSpans text kw)[i]? = some (s, e)) :
    (find_snippets text kw w)[i]? =
      some ((slice (s - w) (min text.length (e + w)) text).map nlToSpace) ∧
    e = s + kw.length ∧ e ≤ text.length ∧
    min text.length (e + w) ≤ text.length ∧
    ∀ sn, (find_snippets text kw w)[i]? = some sn →
      sn.length ≤ 2 * w + kw.length := by
  have hmem : (s, e) ∈ findSpans text kw := by
    have h := List.getElem?_eq_some.mp hsp
    obtain ⟨hlt, hget⟩ := h
    exact hget ▸ List.getElem_mem hlt
  obtain ⟨hm, he⟩ := findSpans_sound text kw hmem
  simp only at hm he
  have hmain : (find_snippets text kw w)[i]? =
      some ((slice (s - w) (min text.length (e + w)) text).map nlToSpace) := by
    rw [find_snippets, List.getElem?_map, hsp]
    rfl
  refine ⟨hmain, he, ?_, Nat.min_le_left _ _, ?_⟩
  · have := (matchAt_elim hm).1
    omega
  · intro sn hsn
    rw [hmain] at hsn
    have hsn' := Option.some.inj hsn
    rw [← hsn']
    exact snippet_length_le text kw w hm he

/-- Witness for C1 at `text = "abc"`, `kw = "b"`, `window = 10`, match 0. -/
theorem C1_witness :
    (find_snippets (str "abc") (str "b") 10)[0]? =
      some ((slice (1 - 10) (min (str "abc").length (2 + 10)) (str "abc")).map
        nlToSpace) ∧
    2 = 1 + (str "b").length ∧ 2 ≤ (str "abc").length ∧
    min (str "abc").length (2 + 10) ≤ (str "abc").length ∧
    ∀ sn, (find_snippets (str "abc") (str "b") 10)[0]? = some sn →
      sn.length ≤ 2 * 10 + (str "b").length :=
  C1_snippet_window (str "abc") (str "b") 10 0 1 2 (by decide)

/-- C2 as stated is false: a keyword containing a literal newline matches in
the text, but the snippet's newline is replaced by a space, so the returned
snippet contains no case-insensitive occurrence of the keyword. -/
theorem C2_counterexample :
    find_snippets (str "a\nb") (str "a\nb") 0 = [str "a b"] ∧
    containsCI (str "a b") (str "a\nb") = false := by decide

/-- C2 (amended): for every keyword that contains no literal newline
character, every snippet returned by `find_snippets` contains at least one
case-insensitive occurrence of the keyword. -/
theorem C2_snippet_contains_keyword (text kw : List Char) (w : Nat)
    (hnl : '\n' ∉ kw) :
    ∀ sn ∈ find_snippets text kw w, containsCI sn kw = true := by
  intro sn hsn
  obtain ⟨p, hp, hval⟩ := List.mem_map.mp hsn
  obtain ⟨s, e⟩ := p
  obtain ⟨hm, he⟩ := findSpans_sound text kw hp
  simp only at hm he
  rw [← hval]
  exact snippet_contains text kw w hnl hm he

/-- Witness for C2 (amended) at `text = "xA Bz"`, `kw = "a b"`, `w = 1`. -/
theorem C2_witness : containsCI (str "xA Bz") (str "a b") = true :=
  C2_snippet_contains_keyword (str "xA Bz") (str "a b") 1 (by decide)
    (str "xA Bz") (by decide)

/-- C3: the matches underlying `find_snippets` form a non-overlapping
left-to-right scan (consecutive spans satisfy `s2 ≥ e1`), the number of
snippets equals the number of spans, each span is a genuine case-insensitive
occurrence of width `len K`, and (for non-empty keywords) every occurrence
overlaps one of the found spans — so the spans are exactly the
non-overlapping left-to-right occurrences. -/
theorem C3_nonoverlapping_scan (text kw : List Char) (w : Nat) :
    List.Chain' (fun p q => p.2 ≤ q.1) (findSpans text kw) ∧
    (find_snippets text kw w).length = (findSpans text kw).length ∧
    (∀ p ∈ findSpans text kw,
      matchAt text kw p.1 = true ∧ p.2 = p.1 + kw.length) ∧
    (kw ≠ [] → ∀ j, matchAt text kw j = true →
      ∃ p ∈ findSpans text kw, p.1 ≤ j ∧ j < p.2) := by
  refine ⟨findSpans_chain text kw, ?_, ?_, ?_⟩
  · rw [find_snippets, List.length_map]
  · intro p hp
    exact findSpans_sound text kw hp
  · intro hk j hj
    exact findSpans_covers text kw hk hj

/-- Witness for C3 at `text = "aAa"`, `kw = "A"`, `w = 0`. -/
theorem C3_witness :
    (find_snippets (str "aAa") (str "A") 0).length =
      (findSpans (str "aAa") (str "A")).length ∧
    matchAt (str "aAa") (str "A") 1 = true ∧
    ∃ p ∈ findSpans (str "aAa") (str "A"), p.1 ≤ 1 ∧ 1 < p.2 :=
  ⟨(C3_nonoverlapping_scan (str "aAa") (str "A") 0).2.1,
   ((C3_nonoverlapping_scan (str "aAa") (str "A") 0).2.2.1 (1, 2) (by decide)).1,
   (C3_nonoverlapping_scan (str "aAa") (str "A") 0).2.2.2 (by decide) 1 (by decide)⟩

/-- C4: edge cases of `find_snippets` for a (per the data model, non-empty)
keyword: empty text gives no snippets; a text without a case-insensitive
occurrence (in particular one shorter than the keyword) gives no snippets;
with window 0 each snippet is exactly the matched occurrence with newlines
replaced by spaces. -/
theorem C4_edge_cases (kw : List Char) (w : Nat) (hk : kw ≠ []) :
    find_snippets [] kw w = [] ∧
    (∀ text, containsCI text kw = false → find_snippets text kw w = []) ∧
    (∀ text, text.length < kw.length → find_snippets text kw w = []) ∧
    (∀ text, find_snippets text kw 0 =
      (findSpans text kw).map (fun p => (slice p.1 p.2 text).map nlToSpace)) := by
  have hL : 0 < kw.length := List.length_pos.mpr hk
  have hempty : ∀ text, containsCI text kw = false → findSpans text kw = [] := by
    intro text hci
    rw [containsCI] at hci
    have hall : ∀ i ∈ List.range (text.length + 1), ¬ matchAt text kw i = true := by
      intro i hi hmi
      have := List.any_eq_true.mpr ⟨i, hi, hmi⟩
      rw [hci] at this
      exact Bool.false_ne_true this
    rcases hcase : findSpans text kw with _ | ⟨p, rest⟩
    · rfl
    · exfalso
      have hp : p ∈ findSpans text kw := by
        rw [hcase]
        exact List.mem_cons_self p rest
      obtain ⟨hm, _⟩ := findSpans_sound text kw hp
      have hb := (matchAt_elim hm).1
      exact hall p.1 (List.mem_range.mpr (by omega)) hm
  have hshort : ∀ text : List Char, text.length < kw.length →
      containsCI text kw = false := by
    intro text hlen
    rw [containsCI, List.any_eq_false]
    intro i _ hmi
    have hb := (matchAt_elim hmi).1
    omega
  refine ⟨?_, ?_, ?_, ?_⟩
  · rw [find_snippets, hempty [] (hshort [] hL)]
    rfl
  · intro text hci
    rw [find_snippets, hempty text hci]
    rfl
  · intro text hlen
    rw [find_snippets, hempty text (hshort text hlen)]
    rfl
  · intro text
    rw [find_snippets]
    refine List.map_congr_left ?_
    intro p hp
    obtain ⟨hm, he⟩ := findSpans_sound text kw hp
    have hb := (matchAt_elim hm).1
    have h1 : p.1 - 0 = p.1 := by omega
    have h2 : min text.length (p.2 + 0) = p.2 := by omega
    rw [h1, h2]

/-- Witness for C4 with keyword "q" (and "qq"), window 3. -/
theorem C4_witness :
    find_snippets [] (str "q") 3 = [] ∧
    find_snippets (str "zz") (str "q") 3 = [] ∧
    find_snippets (str "z") (str "qq") 3 = [] ∧
    find_snippets (str "ab") (str "b") 0 =
      (findSpans (str "ab") (str "b")).map
        (fun p => (slice p.1 p.2 (str "ab")).map nlToSpace) :=
  ⟨(C4_edge_cases (str "q") 3 (by decide)).1,
   (C4_edge_cases (str "q") 3 (by decide)).2.1 (str "zz") (by decide),
   (C4_edge_cases (str "qq") 3 (by decide)).2.2.1 (str "z") (by decide),
   (C4_edge_cases (str "b") 0 (by decide)).2.2.2 (str "ab")⟩

/-! ### Lemmas about keyword parsing -/

lemma head?_dropWhile_false (p : Char → Bool) (l : List Char) {c : Char}
    (h : (l.dropWhile p).head? = some c) : p c = false := by
  have h2 := List.head?_dropWhile_not p l
  rw [h] at h2
  exact h2

lemma dropWhile_eq_self_of_head (p : Char → Bool) (l : List Char)
    (h : ∀ c, l.head? = some c → p c = false) : l.dropWhile p = l := by
  cases l with
  | nil => rfl
  | cons a as =>
    rw [List.dropWhile_cons, if_neg]
    simp [h a rfl]

lemma getLast?_dropWhile (p : Char → Bool) (m : List Char) {c : Char}
    (h : (m.dropWhile p).getLast? = some c) : m.getLast? = some c := by
  obtain ⟨t, ht⟩ := List.dropWhile_suffix (l := m) p
  rw [← ht, List.getLast?_append, h]
  rfl

lemma trim_head (l : List Char) :
    ∀ c, (trim l).head? = some c → Char.isWhitespace c = false := by
  intro c hc
  rw [trim, List.head?_reverse] at hc
  have h1 := getLast?_dropWhile Char.isWhitespace _ hc
  rw [List.getLast?_reverse] at h1
  exact head?_dropWhile_false Char.isWhitespace l h1

lemma trim_last (l : List Char) :
    ∀ c, (trim l).getLast? = some c → Char.isWhitespace c = false := by
  intro c hc
  rw [trim, List.getLast?_reverse] at hc
  exact head?_dropWhile_false Char.isWhitespace _ hc

lemma trim_eq_self (l : List Char)
    (h1 : ∀ c, l.head? = some c → Char.isWhitespace c = false)
    (h2 : ∀ c, l.getLast? = some c → Char.isWhitespace c = false) :
    trim l = l := by
  rw [trim, dropWhile_eq_self_of_head _ _ h1, dropWhile_eq_self_of_head]
  · exact l.reverse_reverse
  · intro c hc
    rw [List.head?_reverse] at hc
    exact h2 c hc

/-- `strip` is idempotent, so every parsed keyword is already trimmed. -/
lemma trim_trim (l : List Char) : trim (trim l) = trim l :=
  trim_eq_self (trim l) (trim_head l) (trim_last l)

/-- C5 as stated is false: `_parse_keywords` performs no deduplication, so
the input "parking, parking" yields two (lower-case-equal) keywords, not
one. -/
theorem C5_counterexample :
    parseKeywords (str "parking, parking") = [str "parking", str "parking"] ∧
    (parseKeywords (str "parking, parking")).length ≠ 1 ∧
    lowerL (str "parking") = lowerL (str "parking") := by decide

/-- C5 (amended): keyword parsing trims each comma-separated entry and drops
empties, but does not deduplicate: `["parking", "parking"]` survives as two
entries. -/
theorem C5_parse_trims_but_no_dedup :
    (∀ s k, k ∈ parseKeywords s → k ≠ [] ∧ trim k = k) ∧
    parseKeywords (str "parking, parking") = [str "parking", str "parking"] := by
  refine ⟨?_, by decide⟩
  intro s k hk
  rw [parseKeywords] at hk
  obtain ⟨hk1, hk2⟩ := List.mem_filter.mp hk
  obtain ⟨piece, _, hpe⟩ := List.mem_map.mp hk1
  constructor
  · intro hnil
    rw [hnil] at hk2
    simp at hk2
  · rw [← hpe]
    exact trim_trim piece

/-- Witness for C5 (amended) at input " a ,b". -/
theorem C5_witness :
    (str "a") ∈ parseKeywords (str " a ,b") ∧
    (str "a") ≠ [] ∧ trim (str "a") = str "a" :=
  ⟨by decide, C5_parse_trims_but_no_dedup.1 (str " a ,b") (str "a") (by decide)⟩

/-! ### Lemmas about the scan loop -/

/-- The per-document record contribution of the scan loop: a failed
extraction contributes nothing, a successful one contributes its
`docRecords` (keywords in order, matches in order). -/
def docContribution (keywords : List (List Char)) (w : Nat)
    (d : List Char × Except Unit (List Char)) : List MatchRecord :=
  match d.2 with
  | .error _ => []
  | .ok text => docRecords d.1 text keywords w

lemma scan_foldl_results (total : Nat) (kws : List (List Char)) (w : Nat) :
    ∀ (docs : List (List Char × Except Unit (List Char))) (n : Nat)
      (acc : ScanState),
      ((docs.enumFrom n).foldl (scanStep total kws w) acc).results =
        acc.results ++ (docs.map (docContribution kws w)).flatten
  | [], n, acc => by simp [List.enumFrom]
  | d :: rest, n, acc => by
    rw [List.enumFrom, List.foldl_cons, scan_foldl_results total kws w rest]
    obtain ⟨name, outcome⟩ := d
    cases outcome with
    | error e =>
      simp [scanStep, docContribution, docRecords]
    | ok text =>
      simp [scanStep, docContribution]

lemma scan_foldl_failures (total : Nat) (kws : List (List Char)) (w : Nat) :
    ∀ (docs : List (List Char × Except Unit (List Char))) (n : Nat)
      (acc : ScanState),
      ((docs.enumFrom n).foldl (scanStep total kws w) acc).failures =
        acc.failures ++
          (docs.filter (fun d =>
            match d.2 with | .error _ => true | .ok _ => false)).map
            (fun d => d.1)
  | [], n, acc => by simp [List.enumFrom]
  | d :: rest, n, acc => by
    rw [List.enumFrom, List.foldl_cons, scan_foldl_failures total kws w rest]
    obtain ⟨name, outcome⟩ := d
    cases outcome with
    | error e => simp [scanStep, List.filter_cons]
    | ok text => simp [scanStep, List.filter_cons]

/-- C6: the claim is right and the code is wrong — the `except` branch
`continue`s past the `progress.progress(idx/len)` call, so a failed document
produces no progress report.  Evaluated at a 2-document batch whose second
document fails extraction: the reported fractions are `[1/2]` and never
reach `2/2`, while the failure diagnostic for the bad document is produced. -/
theorem C6_progress_skips_failed_documents :
    (runScan [(str "a.pdf", .ok (str "x")), (str "b.pdf", .error ())]
        [str "x"] 0).progressReports = [(1, 2)] ∧
    (2, 2) ∉ (runScan [(str "a.pdf", .ok (str "x")), (str "b.pdf", .error ())]
        [str "x"] 0).progressReports ∧
    (runScan [(str "a.pdf", .ok (str "x")), (str "b.pdf", .error ())]
        [str "x"] 0).failures = [str "b.pdf"] := by decide

/-- C9: the final record sequence is the in-ingestion-order concatenation of
per-document contributions — each document's records (keyword order, then
match order, per `docRecords`) are all appended before the next document's —
a failed document contributes the empty list, and every document appears in
the concatenation (failures are also all diagnosed, in order). -/
theorem C9_record_order (docs : List (List Char × Except Unit (List Char)))
    (keywords : List (List Char)) (w : Nat) :
    (runScan docs keywords w).results =
      (docs.map (docContribution keywords w)).flatten ∧
    (∀ d : List Char × Unit,
      docContribution keywords w (d.1, Except.error d.2) = []) ∧
    (runScan docs keywords w).failures =
      (docs.filter (fun d =>
        match d.2 with | .error _ => true | .ok _ => false)).map
        (fun d => d.1) := by
  refine ⟨?_, fun d => rfl, ?_⟩
  · rw [runScan, scan_foldl_results]
    rfl
  · rw [runScan, scan_foldl_failures]
    rfl

/-! ### Lemmas about ingestion -/

lemma gatherAux_error_of_bad_zip
    (zp : List Nat → Option (List (List Char × List Nat))) :
    ∀ (uploads : List (List Char × List Nat)) (acc : FS × List (List Char)),
      (∃ u ∈ uploads, isZipName u.1 = true ∧ zp u.2 = none) →
      ∀ r, gatherAux zp uploads acc ≠ Except.ok r
  | [], acc, h, r => by
    obtain ⟨u, hu, _⟩ := h
    exact absurd hu (List.not_mem_nil u)
  | u :: rest, acc, h, r => by
    rw [gatherAux]
    by_cases hz : isZipName u.1 = true
    · rw [if_pos hz]
      cases hzp : zp u.2 with
      | none => intro hcon; exact Except.noConfusion hcon
      | some members =>
        obtain ⟨v, hv, hv1, hv2⟩ := h
        rcases List.mem_cons.mp hv with rfl | hvrest
        · rw [hzp] at hv2
          exact absurd hv2 (Option.some_ne_none members)
        · exact gatherAux_error_of_bad_zip zp rest _ ⟨v, hvrest, hv1, hv2⟩ r
    · rw [if_neg hz]
      obtain ⟨v, hv, hv1, hv2⟩ := h
      rcases List.mem_cons.mp hv with rfl | hvrest
      · exact absurd hv1 hz
      · exact gatherAux_error_of_bad_zip zp rest _ ⟨v, hvrest, hv1, hv2⟩ r

/-- C7 as stated is false: with a malformed archive followed by a loose PDF,
`gather_pdf_paths` raises out of the loop (`Except.error`), so the remaining
upload's document is not returned and the batch yields nothing. -/
theorem C7_counterexample :
    gather_pdf_paths (fun _ => none) [(str "bad.zip", [1]), (str "good.pdf", [2])]
      = Except.error (str "bad.zip") ∧
    ∀ r, gather_pdf_paths (fun _ => none)
      [(str "bad.zip", [1]), (str "good.pdf", [2])] ≠ Except.ok r := by
  constructor
  · rfl
  · intro r hcon
    rw [show gather_pdf_paths (fun _ => none)
        [(str "bad.zip", [1]), (str "good.pdf", [2])]
        = Except.error (str "bad.zip") from rfl] at hcon
    exact Except.noConfusion hcon

/-- C7 (amended): a malformed archive is not recovered at the ingestion
boundary — whenever any upload is a `.zip` that cannot be opened, the whole
ingestion aborts with an error and returns no document list at all. -/
theorem C7_bad_archive_aborts_batch
    (zp : List Nat → Option (List (List Char × List Nat)))
    (uploads : List (List Char × List Nat))
    (h : ∃ u ∈ uploads, isZipName u.1 = true ∧ zp u.2 = none) :
    ∀ r, gather_pdf_paths zp uploads ≠ Except.ok r :=
  gatherAux_error_of_bad_zip zp uploads ([], []) h

/-- Witness for C7 (amended) at a single malformed archive upload: the
result is in particular not the empty successful ingestion. -/
theorem C7_witness :
    gather_pdf_paths (fun _ => none) [(str "bad.zip", [1])] ≠
      Except.ok ([], []) :=
  C7_bad_archive_aborts_batch (fun _ => none) [(str "bad.zip", [1])]
    ⟨(str "bad.zip", [1]), List.mem_cons_self _ _, by decide, rfl⟩ ([], [])

/-- An archive whose bytes are `[0]` containing two members with equal base
filenames but different bytes (used to settle C10). -/
def zipSameBase : List Nat → Option (List (List Char × List Nat)) :=
  fun b => if b = [0] then some [(str "a/x.pdf", [1]), (str "b/x.pdf", [2])]
           else none

/-- C10: archive members are materialized under their base filename only:
for an archive with members `a/x.pdf` (bytes `[1]`) and `b/x.pdf` (bytes
`[2]`), both are written to the same destination `x.pdf` — the later member
overwrites the earlier one — yet two entries are appended to the output
list, both referring to the later member's bytes; the earlier bytes are
gone from the temp dir. -/
theorem C10_base_filename_collision :
    gather_pdf_paths zipSameBase [(str "a.zip", [0])] =
      Except.ok ([(str "x.pdf", [2])], [str "x.pdf", str "x.pdf"]) ∧
    fsRead [(str "x.pdf", [2])] (str "x.pdf") = some [2] ∧
    ([2] : List Nat) ≠ [1] := by
  refine ⟨rfl, rfl, by decide⟩

/-! ### Lemmas about highlighting -/

/-- The highlighted rendering is at least as long as the input: replacements
only add marker characters around verbatim copies of the input's stretches. -/
lemma hlAux_len_ge (s : List Char) :
    ∀ (spans : List (Nat × Nat)) (pos : Nat),
      s.length - pos ≤ (hlAux s pos spans).length
  | [], pos => by
    rw [hlAux, slice_length]
    omega
  | (a, b) :: rest, pos => by
    rw [hlAux]
    have ih := hlAux_len_ge s rest b
    have hstar : star2.length = 2 := rfl
    simp only [List.length_append, slice_length, hstar]
    omega

/-- Every span handed to the renderer appears in the output wrapped in the
emphasis markers, around the verbatim (original-casing) slice of the input. -/
lemma hlAux_infix (s : List Char) :
    ∀ (spans : List (Nat × Nat)) (pos : Nat) (p : Nat × Nat), p ∈ spans →
      ∃ l r, hlAux s pos spans = l ++ (star2 ++ slice p.1 p.2 s ++ star2) ++ r
  | [], _, p, hp => absurd hp (List.not_mem_nil p)
  | (a, b) :: rest, pos, p, hp => by
    rcases List.mem_cons.mp hp with rfl | hprest
    · refine ⟨slice pos a s, hlAux s b rest, ?_⟩
      rw [hlAux]
      simp [List.append_assoc]
    · obtain ⟨l, r, hlr⟩ := hlAux_infix s rest b p hprest
      refine ⟨slice pos a s ++ star2 ++ slice a b s ++ star2 ++ l, r, ?_⟩
      rw [hlAux, hlr]
      simp [List.append_assoc]

/-- C8: `highlight(s, K)` wraps every case-insensitive occurrence of `K`
in `**` markers around the verbatim original-casing substring of `s`; the
result is at least as long as `s`; each wrapped span is a genuine
occurrence; and (for non-empty `K`) every occurrence of `K` in `s` overlaps
a wrapped span — no occurrence is left un-emphasized. -/
theorem C8_highlight_wraps_occurrences (s kw : List Char) :
    (highlight s kw).length ≥ s.length ∧
    (∀ p ∈ findSpans s kw,
      ∃ l r, highlight s kw = l ++ (star2 ++ slice p.1 p.2 s ++ star2) ++ r) ∧
    (∀ p ∈ findSpans s kw,
      matchAt s kw p.1 = true ∧ p.2 = p.1 + kw.length) ∧
    (kw ≠ [] → ∀ j, matchAt s kw j = true →
      ∃ p ∈ findSpans s kw, p.1 ≤ j ∧ j < p.2) := by
  refine ⟨?_, ?_, ?_, ?_⟩
  · have h := hlAux_len_ge s (findSpans s kw) 0
    rw [highlight]
    omega
  · intro p hp
    exact hlAux_infix s (findSpans s kw) 0 p hp
  · intro p hp
    exact findSpans_sound s kw hp
  · intro hk j hj
    exact findSpans_covers s kw hk hj

/-- Witness for C8 at `s = "a*B"`, `kw = "b"` (match at span `[2,3)`). -/
theorem C8_witness :
    (highlight (str "a*B") (str "b")).length ≥ (str "a*B").length ∧
    (∃ l r, highlight (str "a*B") (str "b") =
      l ++ (star2 ++ slice 2 3 (str "a*B") ++ star2) ++ r) ∧
    matchAt (str "a*B") (str "b") 2 = true ∧
    (∃ p ∈ findSpans (str "a*B") (str "b"), p.1 ≤ 2 ∧ 2 < p.2) :=
  ⟨(C8_highlight_wraps_occurrences (str "a*B") (str "b")).1,
   (C8_highlight_wraps_occurrences (str "a*B") (str "b")).2.1 (2, 3) (by decide),
   ((C8_highlight_wraps_occurrences (str "a*B") (str "b")).2.2.1 (2, 3)
     (by decide)).1,
   (C8_highlight_wraps_occurrences (str "a*B") (str "b")).2.2.2 (by decide) 2
     (by decide)⟩

end PdfScraper
